import Mathlib

set_option maxHeartbeats 1000000

/-!
Shallow embedding of the Titania compiler pipeline: lexical analysis
(scanner.rs), parsing (parser.rs), symbol tables (table.rs), the type model
(types.rs), source and target ASTs (ast.rs), the semantic pass (compiler.rs),
and code emission (emission.rs). Mutable state in the Rust source is made
explicit by state passing; fallible functions return `Except Error`; the
`unimplemented!()` panics in compiler.rs are modelled by a dedicated
`CResult.unimpl` outcome, which is distinct from returning `Ok`.
-/

namespace Titania

/-- Token tags, embedding scanner.rs `enum TokenTag`. Keyword variants are
written with a `kw` marker because `end` is reserved in Lean. -/
inductive TokenTag where
  | kwBegin
  | colon
  | dot
  | kwEnd
  | eof
  | identifier (text : String)
  | integer (digits : String)
  | kwModule
  | kwProcedure
  | kwReturn
  | semicolon
  | star
deriving DecidableEq, Repr

/-- A token from a source text, embedding scanner.rs `struct Token`. -/
structure Token where
  tag : TokenTag
  line : Nat
deriving DecidableEq, Repr

/-- Error tags, embedding error.rs `enum ErrorTag`. -/
inductive ErrorTag where
  | expectedIdentifier (got : TokenTag)
  | expectedToken (expected : TokenTag) (got : TokenTag)
  | nameRedefinition (name : String)
  | unexpectedCharacter (c : Char)
  | unterminatedComment
deriving DecidableEq, Repr

/-- An error paired with a source line, embedding error.rs `struct Error`. -/
structure Error where
  tag : ErrorTag
  line : Nat
deriving DecidableEq, Repr

/-- Constructor of error.rs `Error::name_redefinition`, which wraps the name
and line into an `Err` result. -/
def Error.name_redefinition {T : Type} (name : String) (line : Nat) :
    Except Error T :=
  .error ⟨.nameRedefinition name, line⟩

/-- Scanner state, embedding scanner.rs `struct Scanner`. The Rust scanner
keeps a consuming character iterator plus a two-character lookahead buffer
(`current`, `next`); after `Scanner::new` runs its two initial `advance`
calls, `current` and `next` are always exactly the first two unconsumed
characters of the input. We therefore represent the state as the list of
unconsumed characters together with the 1-based line counter, with
`current = input.head?` and `next = input[1]?`. -/
structure Scanner where
  input : List Char
  line : Nat
deriving DecidableEq, Repr

/-- Embedding of scanner.rs `is_alpha` (`char::is_ascii_alphabetic`). -/
def is_alpha (c : Char) : Bool :=
  (('A' ≤ c && c ≤ 'Z') || ('a' ≤ c && c ≤ 'z'))

/-- Embedding of scanner.rs `is_digit` (`char::is_ascii_digit`). -/
def is_digit (c : Char) : Bool :=
  ('0' ≤ c && c ≤ '9')

/-- Embedding of scanner.rs `is_whitespace`. -/
def is_whitespace (c : Char) : Bool :=
  (c = ' ' || c = '\t' || c = '\r' || c = '\n')

namespace Scanner

/-- The `current` lookahead character (first unconsumed character). -/
def current (s : Scanner) : Option Char :=
  s.input.head?

/-- The `next` lookahead character (second unconsumed character). -/
def next (s : Scanner) : Option Char :=
  s.input[1]?

/-- Embedding of `Scanner::advance`: bump the line counter if the consumed
character is a newline, then step to the next character. -/
def advance (s : Scanner) : Scanner :=
  { input := s.input.tail
    line := if s.current = some '\n' then s.line + 1 else s.line }

/-- Embedding of `Scanner::new`. The two initial `advance` calls in the Rust
constructor only fill the lookahead buffer; no character is consumed and the
line counter stays 1. -/
def new (source : String) : Scanner :=
  { input := source.toList, line := 1 }

theorem advance_input (s : Scanner) : (advance s).input = s.input.tail := rfl

theorem current_some_length {s : Scanner} {c : Char} (h : s.current = some c) :
    0 < s.input.length := by
  cases hi : s.input with
  | nil => rw [current, hi] at h; simp at h
  | cons a l => simp [hi]

theorem next_some_length {s : Scanner} {c : Char} (h : s.next = some c) :
    1 < s.input.length := by
  rw [next] at h
  have := List.getElem?_eq_some.mp h
  exact this.1

/-- Embedding of `Scanner::skip_whitespace_comments`: the loop that consumes
whitespace and a (non-nesting) block comment, with the `in_comment` flag made
an explicit parameter. The guarded match arms of the Rust loop are rendered as
a cascade of conditionals in the same order. -/
def skip_whitespace_comments (s : Scanner) (in_comment : Bool) :
    Except Error Scanner :=
  if h1 : s.current = some '(' ∧ s.next = some '*' ∧ in_comment = false then
    skip_whitespace_comments (s.advance.advance) true
  else if h2 : s.current = some '*' ∧ s.next = some ')' ∧ in_comment = true then
    skip_whitespace_comments (s.advance.advance) false
  else if h3 : (s.current.any fun c => is_whitespace c || in_comment) = true then
    skip_whitespace_comments s.advance in_comment
  else if s.current = none ∧ in_comment = true then
    .error ⟨.unterminatedComment, s.line⟩
  else
    .ok s
termination_by s.input.length
decreasing_by
  · have := next_some_length h1.2.1
    simp only [advance_input, List.length_tail]
    omega
  · have := next_some_length h2.2.1
    simp only [advance_input, List.length_tail]
    omega
  · cases hc : s.current with
    | none => rw [hc] at h3; simp [Option.any] at h3
    | some c =>
      have := current_some_length hc
      simp only [advance_input, List.length_tail]
      omega

/-- Embedding of the lexeme-collecting loop inside `Scanner::identifier`:
consume a maximal run of alphanumeric characters, accumulating them. -/
def ident_loop (s : Scanner) (lexeme : String) : String × Scanner :=
  match h : s.current with
  | some c =>
    if is_alpha c || is_digit c then
      ident_loop s.advance (lexeme.push c)
    else
      (lexeme, s)
  | none => (lexeme, s)
termination_by s.input.length
decreasing_by
  have := current_some_length h
  simp only [advance_input, List.length_tail]
  omega

/-- Embedding of the keyword match at the end of `Scanner::identifier`. -/
def keyword_of_lexeme (lexeme : String) : TokenTag :=
  match lexeme with
  | "BEGIN" => .kwBegin
  | "END" => .kwEnd
  | "MODULE" => .kwModule
  | "PROCEDURE" => .kwProcedure
  | "RETURN" => .kwReturn
  | _ => .identifier lexeme

/-- Embedding of `Scanner::identifier`: record the starting line, collect the
lexeme, and classify it against the keyword set. -/
def identifier (s : Scanner) : Except Error (Token × Scanner) :=
  let line := s.line
  let (lexeme, s) := ident_loop s ""
  .ok (⟨keyword_of_lexeme lexeme, line⟩, s)

/-- Embedding of the digit-collecting loop inside `Scanner::number`. -/
def number_loop (s : Scanner) (lexeme : String) : String × Scanner :=
  match h : s.current with
  | some c =>
    if is_digit c then
      number_loop s.advance (lexeme.push c)
    else
      (lexeme, s)
  | none => (lexeme, s)
termination_by s.input.length
decreasing_by
  have := current_some_length h
  simp only [advance_input, List.length_tail]
  omega

/-- Embedding of `Scanner::number`. -/
def number (s : Scanner) : Except Error (Token × Scanner) :=
  let line := s.line
  let (lexeme, s) := number_loop s ""
  .ok (⟨.integer lexeme, line⟩, s)

/-- Embedding of `Scanner::symbol`: single-character symbols, end of input,
or an unexpected-character error (which performs no advance). -/
def symbol (s : Scanner) : Except Error (Token × Scanner) :=
  let line := s.line
  match s.current with
  | none => .ok (⟨.eof, line⟩, s.advance)
  | some ':' => .ok (⟨.colon, line⟩, s.advance)
  | some '.' => .ok (⟨.dot, line⟩, s.advance)
  | some ';' => .ok (⟨.semicolon, line⟩, s.advance)
  | some '*' => .ok (⟨.star, line⟩, s.advance)
  | some c => .error ⟨.unexpectedCharacter c, s.line⟩

/-- Embedding of `Scanner::next_token`: skip whitespace and comments, then
dispatch on the class of the current character. -/
def next_token (s : Scanner) : Except Error (Token × Scanner) :=
  match skip_whitespace_comments s false with
  | .error e => .error e
  | .ok s =>
    match s.current with
    | some c =>
      if is_alpha c then s.identifier
      else if is_digit c then s.number
      else s.symbol
    | none => s.symbol

end Scanner

/-! Source AST (ast.rs, module `src`). The Rust builders (`BuilderModule`,
`BuilderProc`) are mutable accumulators whose terminal `build` moves the
accumulated fields into a plain record; in the embedding the records are
constructed directly at the corresponding `build` points. -/

/-- Embedding of ast.rs `src::Proc`. The Rust field `export` is a reserved
word in Lean and is written `exported` here. -/
structure Proc where
  name : String
  line : Nat
  exported : Bool
  tid_return : Option String
deriving DecidableEq, Repr

/-- Embedding of ast.rs `src::Decl`. -/
inductive Decl where
  | proc (p : Proc)
deriving DecidableEq, Repr

/-- Embedding of ast.rs `src::Module`. -/
structure Module where
  name : String
  decls : List Decl
deriving DecidableEq, Repr

/-- The name of a declaration (the procedure name of a `Decl::Proc`). -/
def Decl.name : Decl → String
  | .proc p => p.name

/-- The source line of a declaration. -/
def Decl.line : Decl → Nat
  | .proc p => p.line

/-- The export flag of a declaration. -/
def Decl.exported : Decl → Bool
  | .proc p => p.exported

/-- The raw return-type identifier of a declaration. -/
def Decl.tid_return : Decl → Option String
  | .proc p => p.tid_return

/-! Target AST (ast.rs, module `wat`). -/

namespace wat

/-- Embedding of ast.rs `wat::Type` (named `Ty` because `Type` is reserved in
Lean). Its single variant is the `i32` WAT type. -/
inductive Ty where
  | i32
deriving DecidableEq, Repr

/-- Embedding of ast.rs `wat::Func`. -/
structure Func where
  name : String
  result : Option Ty
deriving DecidableEq, Repr

/-- Embedding of ast.rs `wat::Export`. -/
structure Export where
  name : String
deriving DecidableEq, Repr

/-- Embedding of ast.rs `wat::Module`. -/
structure Module where
  name : String
  funcs : List Func
  exports : List Export
deriving DecidableEq, Repr

end wat

/-! Type model (types.rs). A Rust `Type` is a reference-counted `TypeTag`
compared structurally; reference counting is irrelevant to a value-level
embedding, so `Ty` directly mirrors `TypeTag`, and the derived decidable
equality is the structural equality of the Rust `PartialEq` instances. -/

/-- Embedding of types.rs `TypeTag` / `Type`: an integer type or a procedure
type carrying an optional return type (`TypeProc.t_return`). -/
inductive Ty where
  | int
  | proc (t_return : Option Ty)

/-- Boolean structural equality on `Ty`, mirroring the `PartialEq`
implementations of types.rs (equality is by structure, not identity of the
shared allocation). -/
def Ty.beq : Ty → Ty → Bool
  | .int, .int => true
  | .proc none, .proc none => true
  | .proc (some a), .proc (some b) => Ty.beq a b
  | _, _ => false

theorem Ty.beq_iff : ∀ a b : Ty, Ty.beq a b = true ↔ a = b
  | .int, .int => by simp [Ty.beq]
  | .int, .proc _ => by simp [Ty.beq]
  | .proc _, .int => by simp [Ty.beq]
  | .proc none, .proc none => by simp [Ty.beq]
  | .proc none, .proc (some _) => by simp [Ty.beq]
  | .proc (some _), .proc none => by simp [Ty.beq]
  | .proc (some a), .proc (some b) => by
    have ih := Ty.beq_iff a b
    simp [Ty.beq, ih]

instance : DecidableEq Ty :=
  fun a b => decidable_of_iff (Ty.beq a b = true) (Ty.beq_iff a b)

/-- Embedding of types.rs `TypeProc`, the value stored in the procedure
signature table. -/
structure TypeProc where
  t_return : Option Ty
deriving DecidableEq

/-- Embedding of types.rs `TypeProc::new`. -/
def TypeProc.new (t_return : Option Ty) : TypeProc :=
  ⟨t_return⟩

/-! Symbol table (table.rs). -/

/-- Embedding of table.rs `Item`. -/
structure Item (T : Type) where
  name : String
  value : T
deriving DecidableEq, Repr

/-- Embedding of table.rs `Table`: an ordered sequence of name/value items. -/
structure Table (T : Type) where
  items : List (Item T)
deriving DecidableEq, Repr

namespace Table

/-- Embedding of `Table::new`. -/
def new {T : Type} : Table T :=
  ⟨[]⟩

/-- Embedding of `Table::push`: unconditionally append an item. -/
def push {T : Type} (t : Table T) (name : String) (value : T) : Table T :=
  ⟨t.items ++ [⟨name, value⟩]⟩

/-- Embedding of `Table::lookup`: scan the items from the end backward and
return the value of the first item whose name matches. -/
def lookup {T : Type} (t : Table T) (name : String) : Option T :=
  (t.items.reverse.find? fun item => item.name == name).map fun item => item.value

end Table

/-! Parser (parser.rs). Parser state is the scanner plus the current token;
each operation returns the updated state. -/

/-- Embedding of parser.rs `struct Parser`. -/
structure Parser where
  scanner : Scanner
  current : Token
deriving DecidableEq, Repr

namespace Parser

/-- Embedding of `Parser::new`: construct the scanner and pre-fetch the first
token. -/
def new (source : String) : Except Error Parser :=
  match (Scanner.new source).next_token with
  | .error e => .error e
  | .ok (current, scanner) => .ok ⟨scanner, current⟩

/-- Embedding of `Parser::advance`. -/
def advance (p : Parser) : Except Error Parser :=
  match p.scanner.next_token with
  | .error e => .error e
  | .ok (current, scanner) => .ok ⟨scanner, current⟩

/-- Embedding of `Parser::err_current`. -/
def err_current {T : Type} (p : Parser) (tag : ErrorTag) : Except Error T :=
  .error ⟨tag, p.current.line⟩

/-- Embedding of `Parser::expect`. -/
def expect (p : Parser) (expected : TokenTag) : Except Error Parser :=
  if p.current.tag = expected then
    p.advance
  else
    p.err_current (.expectedToken expected p.current.tag)

/-- Embedding of `Parser::expect_identifier`. -/
def expect_identifier (p : Parser) : Except Error (String × Nat × Parser) :=
  match h : p.current.tag with
  | .identifier name =>
    match p.advance with
    | .error e => .error e
    | .ok p' => .ok (name, p.current.line, p')
  | _ => p.err_current (.expectedIdentifier p.current.tag)

/-- Embedding of `Parser::is_match`. -/
def is_match (p : Parser) (tag : TokenTag) : Except Error (Bool × Parser) :=
  if p.current.tag = tag then
    match p.advance with
    | .error e => .error e
    | .ok p' => .ok (true, p')
  else
    .ok (false, p)

/-- Embedding of `Parser::proc` (the `PROCEDURE` keyword has already been
consumed): name, optional `*` export marker, optional `: Identifier` return
type, `;`, `END`. -/
def proc (p : Parser) : Except Error (Proc × Parser) :=
  match p.expect_identifier with
  | .error e => .error e
  | .ok (name, line, p) =>
    match p.is_match .star with
    | .error e => .error e
    | .ok (exported, p) =>
      match p.is_match .colon with
      | .error e => .error e
      | .ok (has_colon, p) =>
        match
          (if has_colon then
            match p.expect_identifier with
            | .error e => .error e
            | .ok (tid, _, p) => .ok (some tid, p)
          else
            .ok (none, p) : Except Error (Option String × Parser)) with
        | .error e => .error e
        | .ok (tid_return, p) =>
          match p.expect .semicolon with
          | .error e => .error e
          | .ok p =>
            match p.expect .kwEnd with
            | .error e => .error e
            | .ok p => .ok (⟨name, line, exported, tid_return⟩, p)

/-- Embedding of `Parser::decl`: if the current token is `PROCEDURE`, parse a
procedure followed by `;`, otherwise produce no declaration. -/
def decl (p : Parser) : Except Error (Option Decl × Parser) :=
  match p.is_match .kwProcedure with
  | .error e => .error e
  | .ok (true, p) =>
    match p.proc with
    | .error e => .error e
    | .ok (procDecl, p) =>
      match p.expect .semicolon with
      | .error e => .error e
      | .ok p => .ok (some (.proc procDecl), p)
  | .ok (false, p) => .ok (none, p)

/-- Embedding of the `while let Some(decl) = self.decl()?` loop inside
`Parser::module`. The Rust loop terminates because each parsed declaration
consumes input; here the iteration count is bounded by an explicit fuel
parameter, and `none` means the fuel ran out (which never happens when the
fuel exceeds the number of declarations). -/
def decl_list (fuel : Nat) (p : Parser) :
    Option (Except Error (List Decl × Parser)) :=
  match fuel with
  | 0 => none
  | fuel + 1 =>
    match p.decl with
    | .error e => some (.error e)
    | .ok (none, p) => some (.ok ([], p))
    | .ok (some d, p) =>
      match decl_list fuel p with
      | none => none
      | some (.error e) => some (.error e)
      | some (.ok (decls, p)) => some (.ok (d :: decls, p))

/-- Embedding of `Parser::module`: `MODULE Id ;` declarations `END . EOF`. -/
def module (fuel : Nat) (p : Parser) : Option (Except Error Module) :=
  match p.expect .kwModule with
  | .error e => some (.error e)
  | .ok p =>
    match p.expect_identifier with
    | .error e => some (.error e)
    | .ok (name, _, p) =>
      match p.expect .semicolon with
      | .error e => some (.error e)
      | .ok p =>
        match decl_list fuel p with
        | none => none
        | some (.error e) => some (.error e)
        | some (.ok (decls, p)) =>
          match p.expect .kwEnd with
          | .error e => some (.error e)
          | .ok p =>
            match p.expect .dot with
            | .error e => some (.error e)
            | .ok p =>
              match p.expect .eof with
              | .error e => some (.error e)
              | .ok _ => some (.ok ⟨name, decls⟩)

end Parser

/-- Parsing a source text end to end: `Parser::new` followed by
`Parser::module`. The declaration-loop fuel `source.length + 1` is ample,
since every parsed declaration consumes at least one input character. -/
def parse (source : String) : Option (Except Error Module) :=
  match Parser.new source with
  | .error e => some (.error e)
  | .ok p => p.module (source.length + 1)

/-! Compiler (compiler.rs). The Rust `ResultCompile` is `Result<_, Error>`,
but `lookup_type` and `to_type_wat` also contain `unimplemented!()` panics;
`CResult` adds the `unimpl` outcome to model those panics, which are neither
`Ok` nor `Err`. -/

/-- Result of a compilation step: success, a structured error, or a Rust
`unimplemented!()` panic. -/
inductive CResult (α : Type) where
  | ok (value : α)
  | err (e : Error)
  | unimpl
deriving DecidableEq, Repr

/-- Embedding of compiler.rs `create_default_type_table`: a table seeded with
`INTEGER -> Type::new_int()`. -/
def create_default_type_table : Table Ty :=
  Table.push Table.new "INTEGER" .int

/-- Embedding of compiler.rs `lookup_type`: resolve a type identifier, hitting
`unimplemented!()` when the identifier is absent from the table. -/
def lookup_type (table_type : Table Ty) (tid : String) : CResult Ty :=
  match table_type.lookup tid with
  | none => .unimpl
  | some t => .ok t

/-- Embedding of compiler.rs `to_type_wat`: `Int` maps to `I32`; every other
type variant hits `unimplemented!()`. -/
def to_type_wat (t : Ty) : CResult wat.Ty :=
  match t with
  | .int => .ok .i32
  | .proc _ => .unimpl

/-- Embedding of compiler.rs `compile_proc`. The redefinition check comes
first; then the optional return-type identifier is resolved
(`tid_return.map(lookup_type).transpose()?`) and mapped to a WAT type; the
signature is pushed into the procedure table before the function node and the
optional export record are returned. The mutated procedure table is returned
explicitly. -/
def compile_proc (table_type : Table Ty) (table_proc : Table TypeProc)
    (decl_proc : Proc) :
    CResult ((wat.Func × Option wat.Export) × Table TypeProc) :=
  match table_proc.lookup decl_proc.name with
  | some _ => .err ⟨.nameRedefinition decl_proc.name, decl_proc.line⟩
  | none =>
    match
      (match decl_proc.tid_return with
      | none => .ok none
      | some tid =>
        match lookup_type table_type tid with
        | .ok t => .ok (some t)
        | .err e => .err e
        | .unimpl => .unimpl : CResult (Option Ty)) with
    | .err e => .err e
    | .unimpl => .unimpl
    | .ok t_return =>
      match
        (match t_return with
        | none => .ok none
        | some t =>
          match to_type_wat t with
          | .ok tw => .ok (some tw)
          | .err e => .err e
          | .unimpl => .unimpl : CResult (Option wat.Ty)) with
      | .err e => .err e
      | .unimpl => .unimpl
      | .ok t_return_wat =>
        let func : wat.Func := ⟨decl_proc.name, t_return_wat⟩
        let table_proc := table_proc.push decl_proc.name (TypeProc.new t_return)
        let export_rec : Option wat.Export :=
          if decl_proc.exported then some ⟨decl_proc.name⟩ else none
        .ok ((func, export_rec), table_proc)

/-- Embedding of compiler.rs `compile_decl`: dispatch on the declaration
variant. -/
def compile_decl (table_type : Table Ty) (table_proc : Table TypeProc)
    (decl : Decl) :
    CResult ((wat.Func × Option wat.Export) × Table TypeProc) :=
  match decl with
  | .proc decl_proc => compile_proc table_type table_proc decl_proc

/-- Embedding of the declaration loop inside compiler.rs `compile`: each
declaration contributes one `Func` (in order) and, when exported, one
`Export` (in order), threading the procedure table. -/
def compile_decls (table_type : Table Ty) (table_proc : Table TypeProc) :
    List Decl → CResult (List wat.Func × List wat.Export)
  | [] => .ok ([], [])
  | decl :: rest =>
    match compile_decl table_type table_proc decl with
    | .err e => .err e
    | .unimpl => .unimpl
    | .ok ((func, export_rec), table_proc) =>
      match compile_decls table_type table_proc rest with
      | .err e => .err e
      | .unimpl => .unimpl
      | .ok (funcs, exports) =>
        .ok (func :: funcs,
          match export_rec with
          | some e => e :: exports
          | none => exports)

/-- Embedding of compiler.rs `compile`: initialize the builtin type table and
an empty procedure table, compile the declarations in source order, and build
the target module. -/
def compile (module : Module) : CResult wat.Module :=
  match compile_decls create_default_type_table Table.new module.decls with
  | .err e => .err e
  | .unimpl => .unimpl
  | .ok (funcs, exports) => .ok ⟨module.name, funcs, exports⟩

/-! Emitter (emission.rs). The Rust function appends to one growing string;
the embedding concatenates the same pieces in the same order, with one helper
per `for` loop. -/

/-- Embedding of the funcs loop of emission.rs `emit_module`. -/
def emit_funcs : List wat.Func → String
  | [] => ""
  | func :: rest =>
    "    " ++ "(func $" ++ func.name ++ "\n" ++ "    " ++ ")\n"
      ++ emit_funcs rest

/-- Embedding of the exports loop of emission.rs `emit_module`. -/
def emit_exports : List wat.Export → String
  | [] => ""
  | e :: rest =>
    "    " ++ "(export \"" ++ e.name ++ "\" (func $" ++ e.name ++ "))\n"
      ++ emit_exports rest

/-- Embedding of emission.rs `emit_module`: header, functions, exports,
closing parenthesis. It is a total function. -/
def emit_module (module : wat.Module) : String :=
  "(module $" ++ module.name ++ "\n"
    ++ emit_funcs module.funcs
    ++ emit_exports module.exports
    ++ ")\n"

/-- The core pipeline of main.rs `compile_file`, with the I/O stripped:
parse, compile, emit. `none` is parser fuel exhaustion (never reached),
`err`/`unimpl` are compilation failures, `ok` carries the emitted text. -/
def compile_source (source : String) : Option (CResult String) :=
  match parse source with
  | none => none
  | some (.error e) => some (.err e)
  | some (.ok m) =>
    match compile m with
    | .err e => some (.err e)
    | .unimpl => some .unimpl
    | .ok w => some (.ok (emit_module w))

/-- A declaration whose return-type identifier is resolvable in the builtin
type table without hitting `unimplemented!()`: either absent, or the one
builtin identifier `INTEGER`. -/
def resolvable (d : Decl) : Prop :=
  d.tid_return = none ∨ d.tid_return = some "INTEGER"

instance (d : Decl) : Decidable (resolvable d) := by
  unfold resolvable; infer_instance

/-- Concrete module with an unresolvable return-type identifier: one
procedure `P` declaring return type `FOO`. -/
def m_unknown_ty : Module :=
  ⟨"M", [.proc ⟨"P", 1, false, some "FOO"⟩]⟩

/-- Concrete module declaring procedure `P` three times, on lines 1, 2, 3. -/
def m_dup_three : Module :=
  ⟨"M", [.proc ⟨"P", 1, false, none⟩, .proc ⟨"P", 2, false, none⟩,
    .proc ⟨"P", 3, false, none⟩]⟩

/-- Concrete two-procedure module used to witness the compile theorems. -/
def m_two_procs : Module :=
  ⟨"M", [.proc ⟨"A", 1, false, none⟩, .proc ⟨"B", 2, true, some "INTEGER"⟩]⟩

/-! Supporting lemmas. -/

theorem Table.lookup_push {T : Type} (t : Table T) (n m : String) (v : T) :
    (t.push n v).lookup m = if n = m then some v else t.lookup m := by
  by_cases h : n = m
  · simp [Table.push, Table.lookup, h]
  · simp [Table.push, Table.lookup, h]

theorem Table.lookup_new {T : Type} (m : String) :
    (Table.new : Table T).lookup m = none := rfl

theorem emit_funcs_eq_of_names {fs1 fs2 : List wat.Func}
    (h : fs1.map wat.Func.name = fs2.map wat.Func.name) :
    emit_funcs fs1 = emit_funcs fs2 := by
  induction fs1 generalizing fs2 with
  | nil => cases fs2 <;> simp_all [emit_funcs]
  | cons f fs ih =>
    cases fs2 with
    | nil => simp_all
    | cons g gs =>
      simp only [List.map_cons, List.cons.injEq] at h
      simp [emit_funcs, h.1, ih h.2]

/-- C6: pushing `(name, v)` then `(name, w)` makes `lookup name` return `w`,
keeps the entry for `v` present, grows the item list by exactly two, and more
generally `push` only ever appends (nothing is removed or reordered). -/
theorem table_push_push_lookup {T : Type} (t : Table T) (name : String)
    (v w : T) :
    ((t.push name v).push name w).lookup name = some w ∧
    (⟨name, v⟩ : Item T) ∈ ((t.push name v).push name w).items ∧
    ((t.push name v).push name w).items.length = t.items.length + 2 ∧
    ((t.push name v).push name w).items = t.items ++ [⟨name, v⟩, ⟨name, w⟩] ∧
    (∀ (t' : Table T) (n : String) (x : T),
      (t'.push n x).items = t'.items ++ [⟨n, x⟩]) := by
  refine ⟨?_, ?_, ?_, ?_, fun t' n x => rfl⟩
  · rw [Table.lookup_push]; simp
  · simp [Table.push]
  · simp [Table.push]
  · simp [Table.push]

/-- C5: `emit_module` is total (it is a plain Lean function) and its output
does not depend on the `result` field of any `Func`: two target modules with
the same name, the same export list, and functions with the same names in the
same order (differing only in their `result` fields) emit identical text. -/
theorem emit_module_result_independent (m1 m2 : wat.Module)
    (hname : m1.name = m2.name)
    (hfuncs : m1.funcs.map wat.Func.name = m2.funcs.map wat.Func.name)
    (hexports : m1.exports = m2.exports) :
    emit_module m1 = emit_module m2 := by
  unfold emit_module
  rw [hname, hexports, emit_funcs_eq_of_names hfuncs]

/-- Witness for C5 at two concrete modules that differ only in the `result`
field of their single function. -/
theorem emit_module_result_independent_witness :
    ((wat.Module.mk "M" [⟨"P", none⟩] [⟨"P"⟩]).name =
        (wat.Module.mk "M" [⟨"P", some .i32⟩] [⟨"P"⟩]).name ∧
      (wat.Module.mk "M" [⟨"P", none⟩] [⟨"P"⟩]).funcs.map wat.Func.name =
        (wat.Module.mk "M" [⟨"P", some .i32⟩] [⟨"P"⟩]).funcs.map wat.Func.name ∧
      (wat.Module.mk "M" [⟨"P", none⟩] [⟨"P"⟩]).exports =
        (wat.Module.mk "M" [⟨"P", some .i32⟩] [⟨"P"⟩]).exports) ∧
    emit_module (wat.Module.mk "M" [⟨"P", none⟩] [⟨"P"⟩]) =
      emit_module (wat.Module.mk "M" [⟨"P", some .i32⟩] [⟨"P"⟩]) :=
  ⟨⟨rfl, rfl, rfl⟩,
    emit_module_result_independent _ _ rfl rfl rfl⟩

/-- C9: the pipeline on `"MODULE M; END."` parses to a module named `M`,
compiles to a target module with empty `funcs` and `exports`, and emits
exactly the text `(module $M\n)\n`. -/
theorem pipeline_empty_module :
    parse "MODULE M; END." = some (.ok ⟨"M", []⟩) ∧
    compile ⟨"M", []⟩ = .ok ⟨"M", [], []⟩ ∧
    emit_module ⟨"M", [], []⟩ = "(module $M\n)\n" ∧
    compile_source "MODULE M; END." = some (.ok "(module $M\n)\n") := by
  refine ⟨?_, rfl, rfl, ?_⟩ <;>
    simp +decide [parse, compile_source, compile, compile_decls, emit_module,
      emit_funcs, emit_exports, Parser.new, Parser.module, Parser.decl_list,
      Parser.decl, Parser.is_match, Parser.expect, Parser.expect_identifier,
      Parser.err_current, Parser.advance, Scanner.next_token,
      Scanner.skip_whitespace_comments, Scanner.new, Scanner.advance,
      Scanner.current, Scanner.next, Scanner.identifier, Scanner.ident_loop,
      Scanner.number, Scanner.number_loop, Scanner.symbol,
      Scanner.keyword_of_lexeme, is_alpha, is_digit, is_whitespace]

/-- C8: scanning `"a\nb\nc"` yields identifier tokens on lines 1, 2, 3, and
the line counter of `advance` increments exactly when the consumed character
is a newline. -/
theorem scanner_line_tracking :
    (Scanner.new "a\nb\nc").next_token =
      .ok (⟨.identifier "a", 1⟩, ⟨['\n', 'b', '\n', 'c'], 1⟩) ∧
    (Scanner.mk ['\n', 'b', '\n', 'c'] 1).next_token =
      .ok (⟨.identifier "b", 2⟩, ⟨['\n', 'c'], 2⟩) ∧
    (Scanner.mk ['\n', 'c'] 2).next_token =
      .ok (⟨.identifier "c", 3⟩, ⟨[], 3⟩) ∧
    ∀ s : Scanner, s.advance.line =
      if s.current = some '\n' then s.line + 1 else s.line := by
  refine ⟨?_, ?_, ?_, fun s => rfl⟩ <;>
    simp +decide [Scanner.next_token, Scanner.skip_whitespace_comments,
      Scanner.new, Scanner.advance, Scanner.current, Scanner.next,
      Scanner.identifier, Scanner.ident_loop, Scanner.keyword_of_lexeme,
      is_alpha, is_digit, is_whitespace]

theorem Scanner.keyword_of_lexeme_ne_eof (lexeme : String) :
    Scanner.keyword_of_lexeme lexeme ≠ .eof := by
  unfold Scanner.keyword_of_lexeme
  split <;> simp

theorem Scanner.identifier_tag_ne_eof {s s' : Scanner} {t : Token}
    (h : Scanner.identifier s = .ok (t, s')) : t.tag ≠ .eof := by
  unfold Scanner.identifier at h
  rcases hp : Scanner.ident_loop s "" with ⟨lex, s2⟩
  rw [hp] at h
  simp only [Except.ok.injEq, Prod.mk.injEq] at h
  rw [← h.1]
  exact Scanner.keyword_of_lexeme_ne_eof lex

theorem Scanner.number_tag_ne_eof {s s' : Scanner} {t : Token}
    (h : Scanner.number s = .ok (t, s')) : t.tag ≠ .eof := by
  unfold Scanner.number at h
  rcases hp : Scanner.number_loop s "" with ⟨lex, s2⟩
  rw [hp] at h
  simp only [Except.ok.injEq, Prod.mk.injEq] at h
  rw [← h.1]
  simp

theorem Scanner.symbol_eof {s s' : Scanner} {t : Token}
    (h : Scanner.symbol s = .ok (t, s')) (ht : t.tag = .eof) :
    s.input = [] ∧ t.line = s.line ∧ s' = s.advance := by
  unfold Scanner.symbol at h
  split at h <;>
    simp only [Except.ok.injEq, Prod.mk.injEq] at h
  case _ heq =>
    refine ⟨?_, ?_, ?_⟩
    · rw [Scanner.current, List.head?_eq_none_iff] at heq
      exact heq
    · rw [← h.1]
    · rw [← h.2]
  all_goals first
    | (exfalso; rw [← h.1] at ht; exact TokenTag.noConfusion ht)
    | exact absurd h (by simp)

theorem Scanner.next_token_eof_state {s s' : Scanner} {t : Token}
    (h : s.next_token = .ok (t, s')) (ht : t.tag = .eof) :
    s'.input = [] ∧ s'.line = t.line := by
  unfold Scanner.next_token at h
  split at h
  · exact absurd h (by simp)
  case _ s1 heq =>
    split at h
    case _ c hc =>
      split at h
      · exact absurd ht (Scanner.identifier_tag_ne_eof h)
      · split at h
        · exact absurd ht (Scanner.number_tag_ne_eof h)
        · obtain ⟨hin, -, -⟩ := Scanner.symbol_eof h ht
          rw [Scanner.current, hin] at hc
          exact absurd hc (by simp)
    case _ hc =>
      obtain ⟨hin, hline, hs⟩ := Scanner.symbol_eof h ht
      rw [hs]
      constructor
      · rw [Scanner.advance_input, hin]; rfl
      · rw [Scanner.advance, hin, hline]
        simp [Scanner.current, hin]

/-- C7: reaching end of input while inside a block comment fails with
`UnterminatedComment` at the line where the scan loop sits; scanning `"(**"`
fails with `UnterminatedComment`; scanning `"(* x *) id"` yields exactly one
identifier token `id` and then `Eof`, with no error. -/
theorem scanner_comment_termination (s : Scanner) (h : s.current = none) :
    Scanner.skip_whitespace_comments s true =
      .error ⟨.unterminatedComment, s.line⟩ ∧
    (Scanner.new "(**").next_token = .error ⟨.unterminatedComment, 1⟩ ∧
    (Scanner.new "(* x *) id").next_token =
      .ok (⟨.identifier "id", 1⟩, ⟨[], 1⟩) ∧
    (Scanner.mk [] 1).next_token = .ok (⟨.eof, 1⟩, ⟨[], 1⟩) := by
  refine ⟨?_, ?_, ?_, ?_⟩
  · unfold Scanner.skip_whitespace_comments
    simp [h, Option.any]
  all_goals
    simp +decide [Scanner.next_token, Scanner.skip_whitespace_comments,
      Scanner.new, Scanner.advance, Scanner.current, Scanner.next,
      Scanner.identifier, Scanner.ident_loop, Scanner.keyword_of_lexeme,
      Scanner.symbol, is_alpha, is_digit, is_whitespace]

/-- Witness for C7 at the concrete exhausted scanner state `⟨[], 5⟩`. -/
theorem scanner_comment_termination_witness :
    (Scanner.mk [] 5).current = none ∧
    (Scanner.skip_whitespace_comments (Scanner.mk [] 5) true =
      .error ⟨.unterminatedComment, 5⟩ ∧
    (Scanner.new "(**").next_token = .error ⟨.unterminatedComment, 1⟩ ∧
    (Scanner.new "(* x *) id").next_token =
      .ok (⟨.identifier "id", 1⟩, ⟨[], 1⟩) ∧
    (Scanner.mk [] 1).next_token = .ok (⟨.eof, 1⟩, ⟨[], 1⟩)) :=
  ⟨rfl, scanner_comment_termination (Scanner.mk [] 5) rfl⟩

/-- C10: once `next_token` returns a token tagged `Eof`, calling `next_token`
on the resulting scanner state again returns `Ok` with tag `Eof`, the same
line number, and the same state — so every subsequent call does too. -/
theorem next_token_eof_absorbing (s s' : Scanner) (t : Token)
    (h : s.next_token = .ok (t, s')) (ht : t.tag = .eof) :
    s'.next_token = .ok (⟨.eof, t.line⟩, s') := by
  obtain ⟨hin, hline⟩ := Scanner.next_token_eof_state h ht
  have hs : s' = ⟨[], t.line⟩ := by
    cases s' with
    | mk input line => simp_all
  rw [hs]
  simp [Scanner.next_token, Scanner.skip_whitespace_comments, Scanner.symbol,
    Scanner.advance, Scanner.current, Scanner.next, Option.any]

/-- Witness for C10 at the empty source text. -/
theorem next_token_eof_absorbing_witness :
    (Scanner.new "").next_token = .ok (⟨.eof, 1⟩, ⟨[], 1⟩) ∧
    (Scanner.mk [] 1).next_token = .ok (⟨.eof, 1⟩, ⟨[], 1⟩) := by
  have h : (Scanner.new "").next_token = .ok (⟨.eof, 1⟩, (⟨[], 1⟩ : Scanner)) := by
    simp [Scanner.next_token, Scanner.skip_whitespace_comments, Scanner.new,
      Scanner.symbol, Scanner.advance, Scanner.current, Scanner.next,
      Option.any]
  exact ⟨h, next_token_eof_absorbing _ _ _ h rfl⟩

theorem compile_proc_ok_none {tp : Table TypeProc} {p : Proc}
    (hfresh : tp.lookup p.name = none) (htid : p.tid_return = none) :
    compile_proc create_default_type_table tp p =
      .ok ((⟨p.name, none⟩, if p.exported then some ⟨p.name⟩ else none),
        tp.push p.name (TypeProc.new none)) := by
  unfold compile_proc
  rw [hfresh, htid]

theorem compile_proc_ok_int {tp : Table TypeProc} {p : Proc}
    (hfresh : tp.lookup p.name = none) (htid : p.tid_return = some "INTEGER") :
    compile_proc create_default_type_table tp p =
      .ok ((⟨p.name, some .i32⟩, if p.exported then some ⟨p.name⟩ else none),
        tp.push p.name (TypeProc.new (some .int))) := by
  unfold compile_proc
  rw [hfresh, htid]
  rfl

theorem compile_proc_ok_inv {tt : Table Ty} {tp : Table TypeProc} {p : Proc}
    {f : wat.Func} {e : Option wat.Export} {tp' : Table TypeProc}
    (h : compile_proc tt tp p = .ok ((f, e), tp')) :
    tp.lookup p.name = none ∧ f.name = p.name ∧
    e = (if p.exported then some ⟨p.name⟩ else none) ∧
    ∃ tr : TypeProc, tp' = tp.push p.name tr := by
  unfold compile_proc at h
  split at h
  · exact absurd h (by simp)
  case _ hfresh =>
    split at h
    · exact absurd h (by simp)
    · exact absurd h (by simp)
    case _ t_return hret =>
      split at h
      · exact absurd h (by simp)
      · exact absurd h (by simp)
      case _ t_return_wat hwat =>
        simp only [CResult.ok.injEq, Prod.mk.injEq] at h
        obtain ⟨⟨hf, he⟩, htp⟩ := h
        exact ⟨hfresh, by rw [← hf], he.symm, TypeProc.new t_return, htp.symm⟩

theorem compile_decls_ok_of :
    ∀ (ds : List Decl) (tp : Table TypeProc),
      (∀ d ∈ ds, tp.lookup d.name = none) →
      (ds.map Decl.name).Nodup →
      (∀ d ∈ ds, resolvable d) →
      ∃ fs es, compile_decls create_default_type_table tp ds = .ok (fs, es) ∧
        fs.map wat.Func.name = ds.map Decl.name ∧
        es.map wat.Export.name =
          (ds.filter fun d => d.exported).map Decl.name := by
  intro ds
  induction ds with
  | nil => exact fun tp _ _ _ => ⟨[], [], rfl, rfl, rfl⟩
  | cons d rest ih =>
    intro tp hfresh hnodup hres
    obtain ⟨p⟩ := d
    have hfr : tp.lookup p.name = none := hfresh _ (List.mem_cons_self _ _)
    simp only [List.map_cons, Decl.name, List.nodup_cons] at hnodup
    have hfresh' : ∀ {tr : TypeProc} (q : Decl), q ∈ rest →
        (tp.push p.name tr).lookup q.name = none := by
      intro tr q hq
      rw [Table.lookup_push]
      have hne : ¬ p.name = q.name := fun hcontra =>
        hnodup.1 (hcontra ▸ List.mem_map_of_mem Decl.name hq)
      simp only [hne, if_false]
      exact hfresh q (List.mem_cons_of_mem _ hq)
    have hresrest : ∀ q ∈ rest, resolvable q :=
      fun q hq => hres q (List.mem_cons_of_mem _ hq)
    have hstep := hres _ (List.mem_cons_self _ _)
    rcases hstep with htid | htid
    · obtain ⟨fs, es, hrec, hfs, hes⟩ :=
        ih (tp.push p.name (TypeProc.new none)) (fun q hq => hfresh' q hq)
          hnodup.2 hresrest
      refine ⟨⟨p.name, none⟩ :: fs,
        (if p.exported then (⟨p.name⟩ : wat.Export) :: es else es), ?_, ?_, ?_⟩
      · simp only [compile_decls, compile_decl,
          compile_proc_ok_none hfr htid, hrec]
        by_cases hexp : p.exported <;> simp [hexp]
      · simp [hfs, Decl.name]
      · by_cases hexp : p.exported <;>
          simp [hexp, List.filter, Decl.exported, Decl.name, hes]
    · obtain ⟨fs, es, hrec, hfs, hes⟩ :=
        ih (tp.push p.name (TypeProc.new (some .int))) (fun q hq => hfresh' q hq)
          hnodup.2 hresrest
      refine ⟨⟨p.name, some .i32⟩ :: fs,
        (if p.exported then (⟨p.name⟩ : wat.Export) :: es else es), ?_, ?_, ?_⟩
      · simp only [compile_decls, compile_decl,
          compile_proc_ok_int hfr htid, hrec]
        by_cases hexp : p.exported <;> simp [hexp]
      · simp [hfs, Decl.name]
      · by_cases hexp : p.exported <;>
          simp [hexp, List.filter, Decl.exported, Decl.name, hes]

theorem compile_decls_ok_inv :
    ∀ (ds : List Decl) (tt : Table Ty) (tp : Table TypeProc)
      (fs : List wat.Func) (es : List wat.Export),
      compile_decls tt tp ds = .ok (fs, es) →
      fs.map wat.Func.name = ds.map Decl.name ∧
      es.map wat.Export.name =
        (ds.filter fun d => d.exported).map Decl.name ∧
      (∀ d ∈ ds, tp.lookup d.name = none) ∧
      (ds.map Decl.name).Nodup := by
  intro ds
  induction ds with
  | nil =>
    intro tt tp fs es h
    simp only [compile_decls, CResult.ok.injEq, Prod.mk.injEq] at h
    obtain ⟨hfs, hes⟩ := h
    simp [← hfs, ← hes]
  | cons d rest ih =>
    intro tt tp fs es h
    simp only [compile_decls] at h
    split at h
    · exact absurd h (by simp)
    · exact absurd h (by simp)
    case _ f e tp1 hstep =>
      split at h
      · exact absurd h (by simp)
      · exact absurd h (by simp)
      case _ fs' es' hrec =>
        simp only [CResult.ok.injEq, Prod.mk.injEq] at h
        obtain ⟨hfs, hes⟩ := h
        obtain ⟨p⟩ := d
        obtain ⟨hfr, hfname, he, tr, htp1⟩ := compile_proc_ok_inv hstep
        obtain ⟨ihfs, ihes, ihfresh, ihnodup⟩ := ih tt tp1 fs' es' hrec
        have hq : ∀ q ∈ rest, ¬ p.name = q.name ∧ tp.lookup q.name = none := by
          intro q hqm
          have hl := ihfresh q hqm
          rw [htp1, Table.lookup_push] at hl
          by_cases hne : p.name = q.name
          · rw [if_pos hne] at hl; exact absurd hl (by simp)
          · rw [if_neg hne] at hl; exact ⟨hne, hl⟩
        refine ⟨?_, ?_, ?_, ?_⟩
        · rw [← hfs]
          simp [Decl.name, hfname, ihfs]
        · rw [← hes, he]
          by_cases hexp : p.exported <;>
            simp [hexp, List.filter, Decl.exported, Decl.name, ihes]
        · intro q hqm
          rcases List.mem_cons.mp hqm with rfl | hqr
          · exact hfr
          · exact (hq q hqr).2
        · simp only [List.map_cons, Decl.name, List.nodup_cons]
          refine ⟨?_, ihnodup⟩
          intro hmem
          obtain ⟨q, hqm, hqn⟩ := List.mem_map.mp hmem
          exact (hq q hqm).1 hqn.symm

theorem compile_decls_redef :
    ∀ (pre : List Decl) (tp : Table TypeProc) (d : Decl) (rest : List Decl),
      (∀ q ∈ pre, tp.lookup q.name = none) →
      ((pre.map Decl.name).Nodup) →
      (∀ q ∈ pre, resolvable q) →
      (d.name ∈ pre.map Decl.name ∨ tp.lookup d.name ≠ none) →
      compile_decls create_default_type_table tp (pre ++ d :: rest) =
        .err ⟨.nameRedefinition d.name, d.line⟩ := by
  intro pre
  induction pre with
  | nil =>
    intro tp d rest _ _ _ hdup
    rcases hdup with h | h
    · exact absurd h (by simp)
    · obtain ⟨p⟩ := d
      cases hv : tp.lookup p.name with
      | none => exact absurd hv h
      | some v =>
        simp only [List.nil_append, compile_decls, compile_decl, compile_proc,
          hv, Decl.name, Decl.line]
  | cons q pre' ih =>
    intro tp d rest hfresh hnodup hres hdup
    obtain ⟨pq⟩ := q
    have hfr : tp.lookup pq.name = none := hfresh _ (List.mem_cons_self _ _)
    simp only [List.map_cons, Decl.name, List.nodup_cons] at hnodup
    have hfresh' : ∀ {tr : TypeProc} (r : Decl), r ∈ pre' →
        (tp.push pq.name tr).lookup r.name = none := by
      intro tr r hr
      rw [Table.lookup_push]
      have hne : ¬ pq.name = r.name := fun hcontra =>
        hnodup.1 (hcontra ▸ List.mem_map_of_mem Decl.name hr)
      simp only [hne, if_false]
      exact hfresh r (List.mem_cons_of_mem _ hr)
    have hdup' : ∀ {tr : TypeProc}, d.name ∈ pre'.map Decl.name ∨
        (tp.push pq.name tr).lookup d.name ≠ none := by
      intro tr
      rcases hdup with hmem | hlook
      · rcases List.mem_cons.mp hmem with heq | hmem'
        · right
          rw [Table.lookup_push, heq]
          simp [Decl.name]
        · exact Or.inl hmem'
      · right
        rw [Table.lookup_push]
        by_cases hne : pq.name = d.name
        · simp [hne]
        · simpa [hne] using hlook
    have hresrest : ∀ r ∈ pre', resolvable r :=
      fun r hr => hres r (List.mem_cons_of_mem _ hr)
    rcases hres _ (List.mem_cons_self _ _) with htid | htid
    · have hrec := ih (tp.push pq.name (TypeProc.new none)) d rest
        (fun r hr => hfresh' r hr) hnodup.2 hresrest hdup'
      simp only [List.cons_append, compile_decls, compile_decl,
        compile_proc_ok_none hfr htid, List.append_eq, hrec]
    · have hrec := ih (tp.push pq.name (TypeProc.new (some .int))) d rest
        (fun r hr => hfresh' r hr) hnodup.2 hresrest hdup'
      simp only [List.cons_append, compile_decls, compile_decl,
        compile_proc_ok_int hfr htid, List.append_eq, hrec]

/-- C1 (amended): for any source module whose procedure declarations have
pairwise distinct names and whose declared return-type identifiers are all
resolvable (absent or `INTEGER` — otherwise the compiler hits
`unimplemented!()` rather than returning `Ok`), `compile` succeeds and the
target `funcs` list has exactly one function per declaration, with the same
names in the same relative order. -/
theorem compile_roundtrip_shape (m : Module)
    (hnodup : (m.decls.map Decl.name).Nodup)
    (hres : ∀ d ∈ m.decls, resolvable d) :
    ∃ w, compile m = .ok w ∧
      w.funcs.length = m.decls.length ∧
      w.funcs.map wat.Func.name = m.decls.map Decl.name := by
  obtain ⟨fs, es, hok, hfs, hes⟩ :=
    compile_decls_ok_of m.decls Table.new
      (fun d _ => Table.lookup_new d.name) hnodup hres
  refine ⟨⟨m.name, fs, es⟩, ?_, ?_, hfs⟩
  · unfold compile
    rw [hok]
  · have hlen := congrArg List.length hfs
    simpa using hlen

/-- C1 counterexample: the syntactically valid module
`MODULE M; PROCEDURE P: FOO; END; END.` has one procedure declaration and no
duplicate names, yet `compile` does not return `Ok` — it hits the
`unimplemented!()` panic in `lookup_type` on the unknown identifier `FOO`. -/
theorem compile_roundtrip_shape_cex :
    (m_unknown_ty.decls.map Decl.name).Nodup ∧
    m_unknown_ty.decls.length = 1 ∧
    parse "MODULE M; PROCEDURE P: FOO; END; END." = some (.ok m_unknown_ty) ∧
    compile m_unknown_ty = .unimpl ∧
    ¬ ∃ w, compile m_unknown_ty = .ok w := by
  refine ⟨by decide, rfl, ?_, rfl, ?_⟩
  · simp +decide [m_unknown_ty, parse, Parser.new, Parser.module,
      Parser.decl_list, Parser.decl, Parser.proc, Parser.is_match,
      Parser.expect, Parser.expect_identifier, Parser.err_current,
      Parser.advance, Scanner.next_token, Scanner.skip_whitespace_comments,
      Scanner.new, Scanner.advance, Scanner.current, Scanner.next,
      Scanner.identifier, Scanner.ident_loop, Scanner.number,
      Scanner.number_loop, Scanner.symbol, Scanner.keyword_of_lexeme,
      is_alpha, is_digit, is_whitespace]
  · rintro ⟨w, hw⟩
    rw [show compile m_unknown_ty = .unimpl from rfl] at hw
    exact CResult.noConfusion hw

/-- Witness for C1 at a concrete two-procedure module. -/
theorem compile_roundtrip_shape_witness :
    ((m_two_procs.decls.map Decl.name).Nodup ∧
      ∀ d ∈ m_two_procs.decls, resolvable d) ∧
    ∃ w, compile m_two_procs = .ok w ∧
      w.funcs.length = m_two_procs.decls.length ∧
      w.funcs.map wat.Func.name = m_two_procs.decls.map Decl.name :=
  ⟨⟨by decide, by decide⟩,
    compile_roundtrip_shape m_two_procs (by decide) (by decide)⟩

/-- C2 (amended): if the first failure the compiler can encounter is a
redefinition — the declaration list splits as `pre ++ d :: rest` where the
declarations of `pre` have pairwise distinct names and resolvable return
types and `d`'s name already occurs in `pre` — then `compile` fails with
`NameRedefinition` carrying `d`'s name and `d`'s own line (the later
declaration's line, never the earlier one's), and the declarations after `d`
are irrelevant: compiling the module truncated just after `d` gives the same
result. -/
theorem compile_redefinition_line (m : Module) (pre : List Decl) (d : Decl)
    (rest : List Decl)
    (hdecls : m.decls = pre ++ d :: rest)
    (hnodup : (pre.map Decl.name).Nodup)
    (hres : ∀ q ∈ pre, resolvable q)
    (hdup : d.name ∈ pre.map Decl.name) :
    compile m = .err ⟨.nameRedefinition d.name, d.line⟩ ∧
    compile ⟨m.name, pre ++ [d]⟩ = compile m := by
  have hfresh : ∀ q ∈ pre, (Table.new : Table TypeProc).lookup q.name = none :=
    fun q _ => rfl
  have h1 := compile_decls_redef pre Table.new d rest hfresh hnodup hres
    (Or.inl hdup)
  have h2 := compile_decls_redef pre Table.new d [] hfresh hnodup hres
    (Or.inl hdup)
  constructor
  · unfold compile
    rw [hdecls]
    simp only [h1]
  · unfold compile
    rw [hdecls]
    simp only [h1, h2]

/-- C2 counterexample: in the module declaring `P` on lines 1, 2 and 3, the
pair of declarations at lines L1 = 1 and L2 = 3 has identical names, yet
compilation fails with `NameRedefinition("P")` at line 2, not at line
L2 = 3 as the claim states for that pair. -/
theorem compile_redefinition_line_cex :
    m_dup_three.decls.map Decl.name = ["P", "P", "P"] ∧
    m_dup_three.decls.map Decl.line = [1, 2, 3] ∧
    compile m_dup_three = .err ⟨.nameRedefinition "P", 2⟩ ∧
    ¬ compile m_dup_three = .err ⟨.nameRedefinition "P", 3⟩ :=
  ⟨rfl, rfl, rfl, by decide⟩

/-- Witness for C2 at the triple-`P` module, split after its second
declaration. -/
theorem compile_redefinition_line_witness :
    (m_dup_three.decls =
      [Decl.proc ⟨"P", 1, false, none⟩] ++ Decl.proc ⟨"P", 2, false, none⟩ ::
        [Decl.proc ⟨"P", 3, false, none⟩] ∧
      (([Decl.proc ⟨"P", 1, false, none⟩] : List Decl).map Decl.name).Nodup ∧
      (∀ q ∈ ([Decl.proc ⟨"P", 1, false, none⟩] : List Decl), resolvable q) ∧
      (Decl.proc ⟨"P", 2, false, none⟩).name ∈
        ([Decl.proc ⟨"P", 1, false, none⟩] : List Decl).map Decl.name) ∧
    (compile m_dup_three =
      .err ⟨.nameRedefinition (Decl.proc ⟨"P", 2, false, none⟩).name,
        (Decl.proc ⟨"P", 2, false, none⟩).line⟩ ∧
    compile ⟨m_dup_three.name,
      [Decl.proc ⟨"P", 1, false, none⟩] ++ [Decl.proc ⟨"P", 2, false, none⟩]⟩ =
      compile m_dup_three) :=
  ⟨⟨rfl, by decide, by decide, by decide⟩,
    compile_redefinition_line m_dup_three _ _ _ rfl (by decide) (by decide)
      (by decide)⟩

/-- C3: a procedure declaring return type `INTEGER` compiles to a `Func`
whose `result` is `Some(I32)`, and its signature with the resolved integer
return type is pushed into the procedure table; in particular
`MODULE M; PROCEDURE P*: INTEGER; END; END.` parses and compiles without
error. -/
theorem compile_integer_return (tp : Table TypeProc) (p : Proc)
    (hfresh : tp.lookup p.name = none)
    (htid : p.tid_return = some "INTEGER") :
    compile_proc create_default_type_table tp p =
      .ok ((⟨p.name, some .i32⟩, if p.exported then some ⟨p.name⟩ else none),
        tp.push p.name (TypeProc.new (some .int))) ∧
    parse "MODULE M; PROCEDURE P*: INTEGER; END; END." =
      some (.ok ⟨"M", [.proc ⟨"P", 1, true, some "INTEGER"⟩]⟩) ∧
    compile ⟨"M", [.proc ⟨"P", 1, true, some "INTEGER"⟩]⟩ =
      .ok ⟨"M", [⟨"P", some .i32⟩], [⟨"P"⟩]⟩ := by
  refine ⟨compile_proc_ok_int hfresh htid, ?_, rfl⟩
  simp +decide [parse, Parser.new, Parser.module, Parser.decl_list,
    Parser.decl, Parser.proc, Parser.is_match, Parser.expect,
    Parser.expect_identifier, Parser.err_current, Parser.advance,
    Scanner.next_token, Scanner.skip_whitespace_comments, Scanner.new,
    Scanner.advance, Scanner.current, Scanner.next, Scanner.identifier,
    Scanner.ident_loop, Scanner.number, Scanner.number_loop, Scanner.symbol,
    Scanner.keyword_of_lexeme, is_alpha, is_digit, is_whitespace]

/-- Witness for C3 at the empty procedure table and the declaration
`PROCEDURE P*: INTEGER`. -/
theorem compile_integer_return_witness :
    ((Table.new : Table TypeProc).lookup
        (Proc.mk "P" 1 true (some "INTEGER")).name = none ∧
      (Proc.mk "P" 1 true (some "INTEGER")).tid_return = some "INTEGER") ∧
    (compile_proc create_default_type_table Table.new
        (Proc.mk "P" 1 true (some "INTEGER")) =
      .ok ((⟨(Proc.mk "P" 1 true (some "INTEGER")).name, some .i32⟩,
          if (Proc.mk "P" 1 true (some "INTEGER")).exported then
            some ⟨(Proc.mk "P" 1 true (some "INTEGER")).name⟩ else none),
        Table.push Table.new (Proc.mk "P" 1 true (some "INTEGER")).name
          (TypeProc.new (some .int))) ∧
    parse "MODULE M; PROCEDURE P*: INTEGER; END; END." =
      some (.ok ⟨"M", [.proc ⟨"P", 1, true, some "INTEGER"⟩]⟩) ∧
    compile ⟨"M", [.proc ⟨"P", 1, true, some "INTEGER"⟩]⟩ =
      .ok ⟨"M", [⟨"P", some .i32⟩], [⟨"P"⟩]⟩) :=
  ⟨⟨rfl, rfl⟩,
    compile_integer_return Table.new (Proc.mk "P" 1 true (some "INTEGER"))
      rfl rfl⟩

/-- C4: whenever `compile` succeeds, the output `funcs` carry exactly the
declared names in order (a `Func` exists for a name iff a declaration with
that name exists), an `Export` exists for a declaration iff its export flag
was set, and the export names form an order-preserving subsequence of the
function names. -/
theorem compile_export_subset (m : Module) (w : wat.Module)
    (h : compile m = .ok w) :
    w.funcs.map wat.Func.name = m.decls.map Decl.name ∧
    w.exports.map wat.Export.name =
      (m.decls.filter fun d => d.exported).map Decl.name ∧
    List.Sublist (w.exports.map wat.Export.name)
      (w.funcs.map wat.Func.name) ∧
    (∀ n, (∃ f ∈ w.funcs, f.name = n) ↔ ∃ d ∈ m.decls, d.name = n) ∧
    (∀ d ∈ m.decls,
      ((∃ e ∈ w.exports, e.name = d.name) ↔ d.exported = true)) := by
  unfold compile at h
  split at h
  · exact absurd h (by simp)
  · exact absurd h (by simp)
  case _ fs es heq =>
    simp only [CResult.ok.injEq] at h
    subst h
    dsimp only
    obtain ⟨hfs, hes, -, hnodup⟩ := compile_decls_ok_inv m.decls _ _ fs es heq
    refine ⟨hfs, hes, ?_, ?_, ?_⟩
    · rw [hfs, hes]
      exact List.Sublist.map Decl.name (List.filter_sublist m.decls)
    · intro n
      have hmem : n ∈ fs.map wat.Func.name ↔ n ∈ m.decls.map Decl.name := by
        rw [hfs]
      simpa [List.mem_map] using hmem
    · intro d hd
      constructor
      · rintro ⟨e, he, hen⟩
        have hmem : d.name ∈ es.map wat.Export.name :=
          List.mem_map.mpr ⟨e, he, hen⟩
        rw [hes] at hmem
        obtain ⟨d', hd', hdn⟩ := List.mem_map.mp hmem
        have hd'mem : d' ∈ m.decls := List.mem_of_mem_filter hd'
        have hd'exp : d'.exported = true := by
          have hf := List.of_mem_filter hd'
          simpa using hf
        have hdd : d' = d := List.inj_on_of_nodup_map hnodup hd'mem hd hdn
        rw [← hdd]
        exact hd'exp
      · intro hexp
        have hdf : d ∈ m.decls.filter (fun d => d.exported) :=
          List.mem_filter.mpr ⟨hd, by simpa using hexp⟩
        have hmem : d.name ∈
            (m.decls.filter fun d => d.exported).map Decl.name :=
          List.mem_map_of_mem _ hdf
        rw [← hes] at hmem
        exact List.mem_map.mp hmem

/-- Witness for C4 at a concrete module with one private and one exported
procedure. -/
theorem compile_export_subset_witness :
    compile m_two_procs =
      .ok ⟨"M", [⟨"A", none⟩, ⟨"B", some .i32⟩], [⟨"B"⟩]⟩ ∧
    (wat.Module.mk "M" [⟨"A", none⟩, ⟨"B", some .i32⟩] [⟨"B"⟩]).funcs.map
        wat.Func.name = m_two_procs.decls.map Decl.name ∧
    List.Sublist
      ((wat.Module.mk "M" [⟨"A", none⟩, ⟨"B", some .i32⟩] [⟨"B"⟩]).exports.map
        wat.Export.name)
      ((wat.Module.mk "M" [⟨"A", none⟩, ⟨"B", some .i32⟩] [⟨"B"⟩]).funcs.map
        wat.Func.name) :=
  ⟨rfl,
    (compile_export_subset m_two_procs
      (wat.Module.mk "M" [⟨"A", none⟩, ⟨"B", some .i32⟩] [⟨"B"⟩]) rfl).1,
    (compile_export_subset m_two_procs
      (wat.Module.mk "M" [⟨"A", none⟩, ⟨"B", some .i32⟩] [⟨"B"⟩]) rfl).2.2.1⟩

end Titania
